import Mathlib

/-!
Verification of the tabular-to-schema object-builder pipeline of `evo-mcp`.

The definitions below are a shallow embedding of the builder framework in
`src/evo_mcp/utils/object_builders.py` and the tool entry points in
`src/evo_mcp/tools/object_build_tools.py`.  Pandas float64 cells are modelled
by the inductive type `FP` (finite rational, plus/minus infinity, NaN);
missing values in string columns are modelled by `Option String`; DataFrames
appear either as plain lists of cells or, where aliasing matters, as entries
in an explicit store.
-/

set_option maxHeartbeats 1000000

namespace EvoMcp

/-! ## Floating-point cells

A pandas float64 cell: a finite value, an infinity, or NaN (the missing
marker).  `fpNotna` mirrors `Series.notna()`; `fpMin2`/`fpMax2` mirror the
NaN-skipping binary min/max underlying `Series.min()`/`Series.max()`. -/

inductive FP where
  | num : ℚ → FP
  | inf : FP
  | negInf : FP
  | nan : FP
deriving DecidableEq, Repr

def fpNotna : FP → Bool
  | .nan => false
  | _ => true

def fpIsFinite : FP → Bool
  | .num _ => true
  | _ => false

/-- Order on non-NaN floats: -inf below every value, +inf above. -/
def fpLe : FP → FP → Bool
  | .negInf, _ => true
  | _, .inf => true
  | .num a, .num b => a ≤ b
  | _, _ => false

def fpMin2 (a b : FP) : FP :=
  match a, b with
  | .nan, _ => b
  | _, .nan => a
  | _, _ => if fpLe a b then a else b

def fpMax2 (a b : FP) : FP :=
  match a, b with
  | .nan, _ => b
  | _, .nan => a
  | _, _ => if fpLe a b then b else a

/-- Mirror of `Series.min()`: fold of the NaN-skipping min, NaN on an empty column. -/
def colMin (l : List FP) : FP := l.foldl fpMin2 .nan

/-- Mirror of `Series.max()`: fold of the NaN-skipping max, NaN on an empty column. -/
def colMax (l : List FP) : FP := l.foldl fpMax2 .nan

/-- Extract the rational payload of a finite float (0 otherwise; only used
under an `fpIsFinite` guard, mirroring `float(...)` after the finite check). -/
def fpToQ : FP → ℚ
  | .num q => q
  | _ => 0

/-! ## Bounding box (`BaseObjectBuilder.build_bounding_box`) -/

/-- One coordinate row: the x, y, z cells. -/
structure Row3 where
  x : FP
  y : FP
  z : FP
deriving DecidableEq, Repr

/-- Mirror of `df[[x,y,z]].notna().all(axis=1)` for one row. -/
def validRow3 (r : Row3) : Bool :=
  fpNotna r.x && fpNotna r.y && fpNotna r.z

/-- Rows kept by the valid-coordinate mask. -/
def validRows (rows : List Row3) : List Row3 := rows.filter validRow3

structure BoundingBox where
  min_x : ℚ
  max_x : ℚ
  min_y : ℚ
  max_y : ℚ
  min_z : ℚ
  max_z : ℚ
deriving DecidableEq, Repr

/-- The six extrema computed over the valid rows, in the order the source
builds `bbox_values` (min_x, max_x, min_y, max_y, min_z, max_z). -/
def bboxExtrema (rows : List Row3) : List FP :=
  let v := validRows rows
  [colMin (v.map Row3.x), colMax (v.map Row3.x),
   colMin (v.map Row3.y), colMax (v.map Row3.y),
   colMin (v.map Row3.z), colMax (v.map Row3.z)]

/-- Mirror of `BaseObjectBuilder.build_bounding_box`: filter to rows with all three
coordinates non-missing, fail if none remain, compute the six extrema, fail
if any is non-finite, otherwise return the box. -/
def build_bounding_box (rows : List Row3) : Except String BoundingBox :=
  let v := validRows rows
  if v.isEmpty then
    .error "No valid coordinates found for bounding box calculation"
  else
    let e := bboxExtrema rows
    if e.all fpIsFinite then
      .ok { min_x := fpToQ (e.getD 0 .nan), max_x := fpToQ (e.getD 1 .nan),
            min_y := fpToQ (e.getD 2 .nan), max_y := fpToQ (e.getD 3 .nan),
            min_z := fpToQ (e.getD 4 .nan), max_z := fpToQ (e.getD 5 .nan) }
    else
      .error "Bounding box extremum is not finite"

/-! ## Categorical attributes (`BaseObjectBuilder.build_category_attribute`) -/

/-- Mirror of `fillna("")` on a string cell. -/
def normalizeCell : Option String → String
  | none => ""
  | some s => s

/-- Mirror of `Series.unique()`: the distinct values in first-occurrence order. -/
def uniqueFirst (l : List String) : List String :=
  l.foldl (fun acc x => if x ∈ acc then acc else acc ++ [x]) []

/-- Mirror of `BaseObjectBuilder.build_category_attribute`: normalize missing cells to
the empty string, build the lookup table with keys 1..K over the distinct
values in first-occurrence order, and map each cell to its key. -/
def build_category_attribute (data : List (Option String)) :
    List (ℕ × String) × List ℕ :=
  let clean := data.map normalizeCell
  let uniques := uniqueFirst clean
  let lookup := (List.range' 1 uniques.length).zip uniques
  let codes := clean.map (fun v => uniques.indexOf v + 1)
  (lookup, codes)

/-! ## Attribute classification (`BaseObjectBuilder.build_attribute`)

Classification looks only at the declared dtype string of the column, never at its
values.  The result records the chosen attribute family and whether the
unknown-dtype warning was emitted. -/

inductive AttrKind where
  | continuous
  | categorical
deriving DecidableEq, Repr

/-- The dtype names the numeric branch of the source recognizes. -/
def recognizedNumericDtypes : List String :=
  ["float64", "float32", "int64", "int32", "float", "int"]

/-- Prefix test on the underlying character lists (the startswith check of
the source on the dtype string). -/
def strStartsWith (s p : String) : Bool := p.data.isPrefixOf s.data

/-- Mirror of `BaseObjectBuilder.build_attribute` dispatch: object/str dtypes are
categorical, the recognized numeric dtypes are continuous, anything else is
coerced to categorical with a warning (second component true). -/
def classifyDtype (dtype : String) : AttrKind × Bool :=
  if dtype = "object" ∨ strStartsWith dtype "str" then
    (.categorical, false)
  else if dtype ∈ recognizedNumericDtypes then
    (.continuous, false)
  else
    (.categorical, true)

/-- Modelled from the spec: the numeric scalar kinds of the data model
(&sect;3 lists float64 and int64/uint64 as the numeric column types).  The
source repository never defines this predicate; it is the phrase used by the spec
"column of a numeric kind". -/
def numericScalarKind (dtype : String) : Bool :=
  dtype ∈ ["float64", "int64", "uint64"]

/-! ## Attribute loop (`BaseObjectBuilder.build_attributes`)

The per-column body `self.build_attribute(df[col], col)` can raise from
library internals; it is abstracted as a fallible function `f`.  The loop
keeps successes in order and records one warning per failed column, exactly
as the `try`/`except` in the source. -/

def attrFailMsg (col err : String) : String :=
  "Failed to build attribute " ++ col ++ ": " ++ err

/-- One iteration of the attribute loop: skip a column absent from the
frame or excluded, otherwise append the built attribute on success or the
warning message on failure. -/
def attrStep {α : Type} (f : String → Except String α)
    (dfCols exclude : List String) (acc : List α × List String)
    (col : String) : List α × List String :=
  if col ∈ dfCols ∧ col ∉ exclude then
    match f col with
    | .ok a => (acc.1 ++ [a], acc.2)
    | .error e => (acc.1, acc.2 ++ [attrFailMsg col e])
  else acc

/-- Mirror of `BaseObjectBuilder.build_attributes`: iterate the requested columns,
skip those absent from the frame or excluded, catch a failure of the
per-column builder as a warning, and return (attributes, warnings). -/
def build_attributes {α : Type} (f : String → Except String α)
    (dfCols columns exclude : List String) : List α × List String :=
  columns.foldl (attrStep f dfCols exclude) ([], [])

/-- The columns `build_attributes` actually attempts. -/
def eligibleCols (dfCols columns exclude : List String) : List String :=
  columns.filter (fun col => col ∈ dfCols ∧ col ∉ exclude)

/-! ## Grouping index (`DownholeCollectionBuilder.build_hole_index_map`) -/

structure HoleRec where
  hole_index : ℕ
  offset : ℕ
  count : ℕ
deriving DecidableEq, Repr

/-- Mirror of `build_hole_id_lookup`: keys 1..H over the hole ids in order. -/
def build_hole_id_lookup (holeIds : List String) : List (ℕ × String) :=
  (List.range' 1 holeIds.length).zip holeIds

/-- Mirror of `id_to_key` built with `dict(zip(lookup.value, lookup.key))`: the key of
the last lookup entry carrying the value (later duplicates win in a dict). -/
def idToKey (lookup : List (ℕ × String)) (v : String) : Option ℕ :=
  (lookup.reverse.find? (fun p => p.2 = v)).map Prod.fst

/-- Closing a run in the scan: emit a record only when a run is open and its
hole id is present in the lookup. -/
def closeRun (lookup : List (ℕ × String)) (cur : Option String)
    (off cnt : ℕ) : List HoleRec :=
  match cur with
  | none => []
  | some h =>
    match idToKey lookup h with
    | some k => [⟨k, off, cnt⟩]
    | none => []

/-- The row scan of `build_hole_index_map`: on a key change close the
previous run and open a new one at the current row index, otherwise extend
the current run.  `idx` is the positional row index. -/
def scanRuns (lookup : List (ℕ × String)) :
    List String → Option String → ℕ → ℕ → ℕ → List HoleRec
  | [], cur, off, cnt, _ => closeRun lookup cur off cnt
  | id :: rest, cur, off, cnt, idx =>
    if some id = cur then
      scanRuns lookup rest cur off (cnt + 1) (idx + 1)
    else
      closeRun lookup cur off cnt ++ scanRuns lookup rest (some id) idx 1 (idx + 1)

/-- Relation ordering grouping records by offset (for the final sort). -/
def offLe (a b : HoleRec) : Prop := a.offset ≤ b.offset

instance : DecidableRel offLe := fun a b => inferInstanceAs (Decidable (a.offset ≤ b.offset))

instance : IsTotal HoleRec offLe := ⟨fun a b => Nat.le_total a.offset b.offset⟩

instance : IsTrans HoleRec offLe := ⟨fun _ _ _ h h' => Nat.le_trans h h'⟩

/-- Mirror of `DownholeCollectionBuilder.build_hole_index_map`: scan the (sorted)
child table for contiguous runs, append a zero-count, zero-offset record for
every lookup key with no observed run, and sort the records by offset. -/
def build_hole_index_map (tableIds : List String)
    (lookup : List (ℕ × String)) : List HoleRec :=
  let recs := scanRuns lookup tableIds none 0 0 0
  let existing := recs.map HoleRec.hole_index
  let missing := ((lookup.map Prod.fst).dedup).filter (fun k => k ∉ existing)
  List.insertionSort offLe (recs ++ missing.map (fun k => ⟨k, 0, 0⟩))

/-! ## Segment index validation (`build_and_create_line_segments`)

The tool compares the column maxima of the start/end index columns against
`len(vertices_df) - 1`.  `Series.max()` of an empty integer column is NaN and
NaN > x is false, so an empty segment table passes.  On success the builder
stores the indices after `astype uint64`, which wraps negative values
modulo 2^64. -/

/-- Maximum of a nonempty integer list (fold from the head). -/
def intColMax (x : ℤ) (xs : List ℤ) : ℤ := xs.foldl max x

/-- The pre-storage range check of `build_and_create_line_segments`: fail
iff the maximum start index or the maximum end index exceeds
`vertex_count - 1`.  Returns `true` when validation passes. -/
def toolSegmentCheck (vertexCount : ℕ) (segs : List (ℤ × ℤ)) : Bool :=
  let maxIdx : ℤ := (vertexCount : ℤ) - 1
  match segs with
  | [] => true
  | s :: rest =>
    let startMax := intColMax s.1 (rest.map Prod.fst)
    let endMax := intColMax s.2 (rest.map Prod.snd)
    !(startMax > maxIdx || endMax > maxIdx)

/-- Mirror of `astype uint64` on one integer cell: wrap modulo 2^64. -/
def toUint64 (x : ℤ) : ℕ := (x % (2 ^ 64 : ℤ)).toNat

/-- The segment indices the tool hands to storage: `none` when the range
check rejects the input, otherwise the uint64-wrapped index pairs. -/
def storedSegmentIndices (vertexCount : ℕ) (segs : List (ℤ × ℤ)) :
    Option (List (ℕ × ℕ)) :=
  if toolSegmentCheck vertexCount segs then
    some (segs.map (fun p => (toUint64 p.1, toUint64 p.2)))
  else
    none

/-! ## Required-column validation (C9)

`LineSegmentsBuilder.build` raises `ValueError` as soon as one required set
has a missing column; the error payload is modelled as the list of missing
columns the raised message names.  The tool entry points instead append one
error entry per failed check to `result["errors"]` and only then return. -/

/-- The validation prefix of `LineSegmentsBuilder.build`: check the vertex
columns and raise at once if any is missing, only then check the segment
columns. -/
def lineSegmentsBuilderValidate (vertexCols segmentCols : List String)
    (requiredVertex requiredSegment : List String) : Except (List String) Unit :=
  let missingV := requiredVertex.filter (fun c => c ∉ vertexCols)
  if missingV ≠ [] then .error missingV
  else
    let missingS := requiredSegment.filter (fun c => c ∉ segmentCols)
    if missingS ≠ [] then .error missingS
    else .ok ()

/-- The column validation of `build_and_create_downhole_collection`: collect
the missing collar columns, the absent max-depth column, and the missing
survey columns as separate error entries before returning. -/
def downholeToolValidate (collarCols surveyCols : List String)
    (requiredCollar requiredSurvey : List String)
    (maxDepthCol : Option String) : List (List String) :=
  (if requiredCollar.filter (fun c => c ∉ collarCols) ≠ []
   then [requiredCollar.filter (fun c => c ∉ collarCols)] else [])
  ++ (match maxDepthCol with
      | some c => if c ∉ collarCols then [[c]] else []
      | none => [])
  ++ (if requiredSurvey.filter (fun c => c ∉ surveyCols) ≠ []
      then [requiredSurvey.filter (fun c => c ∉ surveyCols)] else [])

/-! ## Frame aliasing (C10)

Whether a builder mutates a DataFrame of the caller depends on which pandas calls
write in place.  Frames live in an explicit store (a list of frames); the
inputs of the caller are store indices.  `sort_values`/`copy`/column selection
allocate fresh frames appended to the store; the single in-place write of
the pipeline (`survey_df[dip_col] = -survey_df[dip_col]`) is a `List.set` on
the index the local variable holds at that point — which is the copy. -/

inductive Cell where
  | str : String → Cell
  | num : ℚ → Cell
deriving DecidableEq, Repr

/-- Ordering used by `sort_values`: values of one kind compare naturally,
mixed kinds are never ≤ (Python would raise on a mixed-type sort key). -/
def cellLe (a b : Cell) : Prop :=
  match a, b with
  | .str s, .str t => s ≤ t
  | .num p, .num q => p ≤ q
  | _, _ => False

instance : DecidableRel cellLe := fun a b => by
  unfold cellLe
  cases a <;> cases b <;> infer_instance

structure Frame where
  header : List String
  rows : List (List Cell)
deriving DecidableEq, Repr

instance : Inhabited Frame := ⟨⟨[], []⟩⟩

def cellAt (row : List Cell) (i : ℕ) : Cell := row.getD i (.str "")

def sortKeyLe (i : ℕ) (r s : List Cell) : Prop := cellLe (cellAt r i) (cellAt s i)

instance (i : ℕ) : DecidableRel (sortKeyLe i) := fun r s =>
  inferInstanceAs (Decidable (cellLe (cellAt r i) (cellAt s i)))

/-- Mirror of `df.sort_values(by=col).reset_index(drop=True)`: a fresh frame with the
rows sorted by the named column. -/
def sortValues (f : Frame) (col : String) : Frame :=
  ⟨f.header, List.insertionSort (sortKeyLe (f.header.indexOf col)) f.rows⟩

/-- Mirror of `df.copy()`: a fresh frame with the same contents. -/
def copyFrame (f : Frame) : Frame := f

/-- Negate one cell (`-x`); a string cell is left unchanged (Python would
raise, and the dip column is numeric). -/
def negCell : Cell → Cell
  | .num q => .num (-q)
  | .str s => .str s

/-- Mirror of `df[col] = -df[col]`: the new contents of the frame the variable points
at (the write itself is a store update at the index of that frame). -/
def negateCol (f : Frame) (col : String) : Frame :=
  let i := f.header.indexOf col
  ⟨f.header, f.rows.map (fun r => r.set i (negCell (cellAt r i)))⟩

/-- Mirror of `df[[c1,c2,c3]].copy()`: a fresh frame of the selected columns. -/
def selectCols (f : Frame) (cols : List String) : Frame :=
  ⟨cols, f.rows.map (fun r => cols.map (fun c => cellAt r (f.header.indexOf c)))⟩

def cellNotna : Cell → Bool
  | .num _ => true
  | .str _ => true

/-- Mirror of `df[df[[x,y,z]].notna().all(axis=1)]`: a fresh frame of the rows with
all three coordinate cells non-missing. -/
def filterValidRows (f : Frame) (xc yc zc : String) : Frame :=
  ⟨f.header,
   f.rows.filter (fun r =>
     cellNotna (cellAt r (f.header.indexOf xc)) &&
     cellNotna (cellAt r (f.header.indexOf yc)) &&
     cellNotna (cellAt r (f.header.indexOf zc)))⟩

/-- The frame effects of `DownholeCollectionBuilder.build` on the store:
rebind `collar_df` and `survey_df` to freshly sorted frames; when `invert_z`
is set, rebind `survey_df` to a copy and negate its dip column in place.
Returns the final store and the frame indices the local variables end on. -/
def downholeFrameEffects (invert : Bool) (collarIdCol surveyIdCol dipCol : String)
    (store : List Frame) (collarRef surveyRef : ℕ) : List Frame × ℕ × ℕ :=
  let s1 := store ++ [sortValues (store.getD collarRef default) collarIdCol]
  let collarRef1 := store.length
  let s2 := s1 ++ [sortValues (s1.getD surveyRef default) surveyIdCol]
  let surveyRef1 := s1.length
  if invert then
    let s3 := s2 ++ [copyFrame (s2.getD surveyRef1 default)]
    let surveyRef2 := s2.length
    let s4 := s3.set surveyRef2 (negateCol (s3.getD surveyRef2 default) dipCol)
    (s4, collarRef1, surveyRef2)
  else
    (s2, collarRef1, surveyRef1)

/-- The frame effects of `PointsetBuilder.build` on the store: every frame
access is a read or a fresh allocation (coordinate selection for
`save_float_array3`, the valid-row mask for the bounding box); the input
frame is never written. -/
def pointsetFrameEffects (xc yc zc : String)
    (store : List Frame) (dfRef : ℕ) : List Frame × ℕ :=
  let df := store.getD dfRef default
  let s1 := store ++ [selectCols df [xc, yc, zc]]
  let s2 := s1 ++ [filterValidRows df xc yc zc]
  (s2, dfRef)

/-! ## Entity tree round-trip (C2)

Modelled from the spec: the schema classes (`Pointset_V1_3_0`,
`LineSegments_V2_2_0`, `DownholeCollection_V1_3_0`,
`DownholeIntervals_V1_3_0`, with their `as_dict`/`from_dict`) live in the
external `evo_schemas` library, which is not part of this repository.  The
entity tree and its plain nested-map form below follow the data model of
the spec (&sect;3): name, description, free-form tag map, bounding volume,
CRS label, and a type-specific body covering all four variants a builder
produces — point set (coordinate array plus typed attributes), line
network (vertex array with vertex attributes plus segment-index array with
segment attributes), hole collection (collar coordinates, hole-id lookup,
survey path, survey grouping index, named interval collections each with
a from/to array, grouping index, and attributes), and flat intervals
(start/end/mid coordinates, from/to depths, hole-id category field, and
attributes).  Every array field is an opaque store reference (content
pointer plus length). -/

structure ArrayRef where
  dataId : String
  length : ℕ
deriving DecidableEq, Repr

structure ContAttrT where
  name : String
  key : String
  values : ArrayRef
deriving DecidableEq, Repr

structure CatAttrT where
  name : String
  key : String
  table : ArrayRef
  values : ArrayRef
deriving DecidableEq, Repr

inductive AttrT where
  | cont : ContAttrT → AttrT
  | cat : CatAttrT → AttrT
deriving DecidableEq, Repr

/-- Dictionary-encoded category field: a lookup-table reference and a
parallel integer-code array reference. -/
structure CategoryDataT where
  table : ArrayRef
  values : ArrayRef
deriving DecidableEq, Repr

/-- One named interval collection of a hole collection: a from/to interval
array, a grouping index, and typed attributes. -/
structure IntervalCollectionT where
  name : String
  intervals : ArrayRef
  holes : ArrayRef
  attributes : List AttrT
deriving DecidableEq, Repr

/-- The type-specific body of an entity tree: one variant per builder. -/
inductive EntityBody where
  | pointset (coordinates : ArrayRef) (attributes : List AttrT) : EntityBody
  | lineNetwork (vertices : ArrayRef) (vertexAttributes : List AttrT)
      (indices : ArrayRef) (segmentAttributes : List AttrT) : EntityBody
  | holeCollection (coordinates : ArrayRef) (holeId : CategoryDataT)
      (path : ArrayRef) (holes : ArrayRef)
      (collections : List IntervalCollectionT) : EntityBody
  | flatIntervals (startLoc endLoc midLoc : ArrayRef) (fromTo : ArrayRef)
      (holeId : CategoryDataT) (attributes : List AttrT) : EntityBody
deriving DecidableEq, Repr

/-- The complete entity tree a builder assembles: common metadata (name,
description, tag map, CRS, bounding volume) plus the type-specific body. -/
structure EntityTree where
  name : String
  description : String
  tags : List (String × String)
  crs : String
  bbox : BoundingBox
  body : EntityBody
deriving DecidableEq, Repr

/-- Plain nested-map values (the `as_dict` output form). -/
inductive JVal where
  | jstr : String → JVal
  | jnum : ℚ → JVal
  | jnat : ℕ → JVal
  | jobj : List (String × JVal) → JVal
  | jarr : List JVal → JVal

def refDict (r : ArrayRef) : JVal :=
  .jobj [("data", .jstr r.dataId), ("length", .jnat r.length)]

def attrDict : AttrT → JVal
  | .cont a =>
    .jobj [("attribute_type", .jstr "scalar"), ("name", .jstr a.name),
           ("key", .jstr a.key), ("values", refDict a.values)]
  | .cat a =>
    .jobj [("attribute_type", .jstr "category"), ("name", .jstr a.name),
           ("key", .jstr a.key), ("table", refDict a.table),
           ("values", refDict a.values)]

def bboxDict (b : BoundingBox) : JVal :=
  .jobj [("min_x", .jnum b.min_x), ("max_x", .jnum b.max_x),
         ("min_y", .jnum b.min_y), ("max_y", .jnum b.max_y),
         ("min_z", .jnum b.min_z), ("max_z", .jnum b.max_z)]

def catDataDict (c : CategoryDataT) : JVal :=
  .jobj [("table", refDict c.table), ("values", refDict c.values)]

def intervalCollectionDict (c : IntervalCollectionT) : JVal :=
  .jobj [("name", .jstr c.name), ("intervals", refDict c.intervals),
         ("holes", refDict c.holes),
         ("attributes", .jarr (c.attributes.map attrDict))]

def bodyDict : EntityBody → JVal
  | .pointset coordinates attributes =>
    .jobj [("entity_type", .jstr "pointset"),
           ("coordinates", refDict coordinates),
           ("attributes", .jarr (attributes.map attrDict))]
  | .lineNetwork vertices vertexAttributes indices segmentAttributes =>
    .jobj [("entity_type", .jstr "line-network"),
           ("vertices", refDict vertices),
           ("vertex_attributes", .jarr (vertexAttributes.map attrDict)),
           ("indices", refDict indices),
           ("segment_attributes", .jarr (segmentAttributes.map attrDict))]
  | .holeCollection coordinates holeId path holes collections =>
    .jobj [("entity_type", .jstr "hole-collection"),
           ("coordinates", refDict coordinates),
           ("hole_id", catDataDict holeId),
           ("path", refDict path),
           ("holes", refDict holes),
           ("collections", .jarr (collections.map intervalCollectionDict))]
  | .flatIntervals startLoc endLoc midLoc fromTo holeId attributes =>
    .jobj [("entity_type", .jstr "flat-intervals"),
           ("start", refDict startLoc),
           ("stop", refDict endLoc),
           ("mid_points", refDict midLoc),
           ("from_to", refDict fromTo),
           ("hole_id", catDataDict holeId),
           ("attributes", .jarr (attributes.map attrDict))]

/-- Serialization of an assembled entity tree to its plain nested-map form
(the `obj.as_dict()` step of the tools). -/
def entityAsDict (t : EntityTree) : JVal :=
  .jobj [("name", .jstr t.name),
         ("description", .jstr t.description),
         ("tags", .jobj (t.tags.map (fun p => (p.1, JVal.jstr p.2)))),
         ("coordinate_reference_system", .jstr t.crs),
         ("bounding_box", bboxDict t.bbox),
         ("body", bodyDict t.body)]

def getField (l : List (String × JVal)) (k : String) : Option JVal :=
  (l.find? (fun p => p.1 = k)).map Prod.snd

def asStr : JVal → Option String
  | .jstr s => some s
  | _ => none

def asNum : JVal → Option ℚ
  | .jnum q => some q
  | _ => none

def asNat : JVal → Option ℕ
  | .jnat n => some n
  | _ => none

def asObj : JVal → Option (List (String × JVal))
  | .jobj o => some o
  | _ => none

def asArr : JVal → Option (List JVal)
  | .jarr l => some l
  | _ => none

def parseRef (v : JVal) : Option ArrayRef := do
  let o ← asObj v
  let d ← getField o "data" >>= asStr
  let n ← getField o "length" >>= asNat
  pure ⟨d, n⟩

def parseAttr (v : JVal) : Option AttrT := do
  let o ← asObj v
  let ty ← getField o "attribute_type" >>= asStr
  let name ← getField o "name" >>= asStr
  let key ← getField o "key" >>= asStr
  let values ← getField o "values" >>= parseRef
  if ty = "category" then
    let table ← getField o "table" >>= parseRef
    pure (.cat ⟨name, key, table, values⟩)
  else if ty = "scalar" then
    pure (.cont ⟨name, key, values⟩)
  else
    none

def parseBBox (v : JVal) : Option BoundingBox := do
  let o ← asObj v
  let mnx ← getField o "min_x" >>= asNum
  let mxx ← getField o "max_x" >>= asNum
  let mny ← getField o "min_y" >>= asNum
  let mxy ← getField o "max_y" >>= asNum
  let mnz ← getField o "min_z" >>= asNum
  let mxz ← getField o "max_z" >>= asNum
  pure ⟨mnx, mxx, mny, mxy, mnz, mxz⟩

def parseCatData (v : JVal) : Option CategoryDataT := do
  let o ← asObj v
  let table ← getField o "table" >>= parseRef
  let values ← getField o "values" >>= parseRef
  pure ⟨table, values⟩

def parseIntervalCollection (v : JVal) : Option IntervalCollectionT := do
  let o ← asObj v
  let name ← getField o "name" >>= asStr
  let intervals ← getField o "intervals" >>= parseRef
  let holes ← getField o "holes" >>= parseRef
  let avs ← getField o "attributes" >>= asArr
  let attrs ← avs.mapM parseAttr
  pure ⟨name, intervals, holes, attrs⟩

def parseTagEntry (p : String × JVal) : Option (String × String) := do
  let s ← asStr p.2
  pure (p.1, s)

def parseTags (v : JVal) : Option (List (String × String)) := do
  let o ← asObj v
  o.mapM parseTagEntry

def parseBody (v : JVal) : Option EntityBody := do
  let o ← asObj v
  let ty ← getField o "entity_type" >>= asStr
  if ty = "pointset" then
    let coordinates ← getField o "coordinates" >>= parseRef
    let avs ← getField o "attributes" >>= asArr
    let attrs ← avs.mapM parseAttr
    pure (.pointset coordinates attrs)
  else if ty = "line-network" then
    let vertices ← getField o "vertices" >>= parseRef
    let vavs ← getField o "vertex_attributes" >>= asArr
    let vattrs ← vavs.mapM parseAttr
    let indices ← getField o "indices" >>= parseRef
    let savs ← getField o "segment_attributes" >>= asArr
    let sattrs ← savs.mapM parseAttr
    pure (.lineNetwork vertices vattrs indices sattrs)
  else if ty = "hole-collection" then
    let coordinates ← getField o "coordinates" >>= parseRef
    let holeId ← getField o "hole_id" >>= parseCatData
    let path ← getField o "path" >>= parseRef
    let holes ← getField o "holes" >>= parseRef
    let cvs ← getField o "collections" >>= asArr
    let collections ← cvs.mapM parseIntervalCollection
    pure (.holeCollection coordinates holeId path holes collections)
  else if ty = "flat-intervals" then
    let startLoc ← getField o "start" >>= parseRef
    let endLoc ← getField o "stop" >>= parseRef
    let midLoc ← getField o "mid_points" >>= parseRef
    let fromTo ← getField o "from_to" >>= parseRef
    let holeId ← getField o "hole_id" >>= parseCatData
    let avs ← getField o "attributes" >>= asArr
    let attrs ← avs.mapM parseAttr
    pure (.flatIntervals startLoc endLoc midLoc fromTo holeId attrs)
  else
    none

/-- Re-parse of the nested-map form against the target schema (the
`schema_class.from_dict` step). -/
def entityFromDict (v : JVal) : Option EntityTree := do
  let o ← asObj v
  let name ← getField o "name" >>= asStr
  let description ← getField o "description" >>= asStr
  let tags ← getField o "tags" >>= parseTags
  let crs ← getField o "coordinate_reference_system" >>= asStr
  let bbox ← getField o "bounding_box" >>= parseBBox
  let body ← getField o "body" >>= parseBody
  pure ⟨name, description, tags, crs, bbox, body⟩

/-- Mirror of `BaseObjectBuilder.validate_object`: re-parse the nested-map
form, reporting a parse failure as a schema-validation error. -/
def validate_object (v : JVal) : Except String EntityTree :=
  match entityFromDict v with
  | some t => .ok t
  | none => .error "Schema validation failed"

/-! ## Lemmas on first-occurrence deduplication -/

theorem uniqueFirst_append_singleton (l : List String) (y : String) :
    uniqueFirst (l ++ [y]) =
      if y ∈ uniqueFirst l then uniqueFirst l else uniqueFirst l ++ [y] := by
  simp [uniqueFirst, List.foldl_append]

theorem mem_uniqueFirst (l : List String) (x : String) :
    x ∈ uniqueFirst l ↔ x ∈ l := by
  induction l using List.reverseRecOn with
  | nil => simp [uniqueFirst]
  | append_singleton l y ih =>
    rw [uniqueFirst_append_singleton]
    by_cases h : y ∈ uniqueFirst l
    · simp only [if_pos h]
      constructor
      · intro hx
        exact List.mem_append_left _ (ih.mp hx)
      · intro hx
        rcases List.mem_append.mp hx with hx | hx
        · exact ih.mpr hx
        · rw [List.mem_singleton.mp hx]; exact h
    · simp only [if_neg h, List.mem_append, ih, List.mem_singleton]

theorem nodup_uniqueFirst (l : List String) : (uniqueFirst l).Nodup := by
  induction l using List.reverseRecOn with
  | nil => simp [uniqueFirst]
  | append_singleton l y ih =>
    rw [uniqueFirst_append_singleton]
    by_cases h : y ∈ uniqueFirst l
    · simpa [h] using ih
    · simp only [if_neg h, List.nodup_append]
      exact ⟨ih, List.nodup_singleton y, by
        intro a ha hb
        rw [List.mem_singleton.mp hb] at ha
        exact h ha⟩

theorem indexOf_append_of_not_mem {α : Type} [DecidableEq α] {a : α}
    {l : List α} (h : a ∉ l) (l₂ : List α) :
    (l ++ l₂).indexOf a = l.length + l₂.indexOf a := by
  induction l with
  | nil => simp
  | cons b t ih =>
    have hba : ¬b = a := fun hb => h (hb ▸ List.mem_cons_self b t)
    have hat : a ∉ t := fun ht => h (List.mem_cons_of_mem b ht)
    simp [List.indexOf_cons, hba, ih hat, Nat.add_assoc, Nat.add_comm 1]

theorem pairwise_indexOf_uniqueFirst (l : List String) :
    (uniqueFirst l).Pairwise (fun a b => l.indexOf a < l.indexOf b) := by
  induction l using List.reverseRecOn with
  | nil => simp [uniqueFirst]
  | append_singleton l y ih =>
    rw [uniqueFirst_append_singleton]
    by_cases h : y ∈ uniqueFirst l
    · simp only [if_pos h]
      refine ih.imp_of_mem ?_
      intro a b ha hb hab
      have ha' : a ∈ l := (mem_uniqueFirst l a).mp ha
      have hb' : b ∈ l := (mem_uniqueFirst l b).mp hb
      rwa [List.indexOf_append_of_mem ha', List.indexOf_append_of_mem hb']
    · simp only [if_neg h]
      have hy : y ∉ l := fun hy => h ((mem_uniqueFirst l y).mpr hy)
      rw [List.pairwise_append]
      refine ⟨ih.imp_of_mem ?_, List.pairwise_singleton _ _, ?_⟩
      · intro a b ha hb hab
        have ha' : a ∈ l := (mem_uniqueFirst l a).mp ha
        have hb' : b ∈ l := (mem_uniqueFirst l b).mp hb
        rwa [List.indexOf_append_of_mem ha', List.indexOf_append_of_mem hb']
      · intro a ha b hb
        rw [List.mem_singleton.mp hb]
        have ha' : a ∈ l := (mem_uniqueFirst l a).mp ha
        rw [List.indexOf_append_of_mem ha', indexOf_append_of_not_mem hy]
        calc l.indexOf a < l.length := List.indexOf_lt_length.mpr ha'
          _ ≤ l.length + [y].indexOf y := Nat.le_add_right _ _

/-- C4: for every categorical attribute built from a column, missing values
are normalized to the empty string (an ordinary category), the lookup maps
the dense integer keys 1..K, with no gaps or duplicates, to the K distinct
observed strings in first-occurrence order, and every code in the value
array has a corresponding lookup entry; concretely, the column
[A, missing, A, B] yields lookup {1:A, 2:empty, 3:B} and codes [1,2,1,3]. -/
theorem claim_c4 :
    (build_category_attribute ([some "A", none, some "A", some "B"])
       = ([(1, "A"), (2, ""), (3, "B")], [1, 2, 1, 3]))
    ∧ ∀ data : List (Option String),
        ((build_category_attribute data).1).map Prod.fst
            = List.range' 1 ((build_category_attribute data).1).length
        ∧ (((build_category_attribute data).1).map Prod.snd).Nodup
        ∧ (∀ v, v ∈ ((build_category_attribute data).1).map Prod.snd ↔
              v ∈ data.map normalizeCell)
        ∧ (((build_category_attribute data).1).map Prod.snd).Pairwise
            (fun a b => (data.map normalizeCell).indexOf a
                        < (data.map normalizeCell).indexOf b)
        ∧ ∀ c ∈ (build_category_attribute data).2,
            ∃ v : String, (c, v) ∈ (build_category_attribute data).1 := by
  constructor
  · decide
  · intro data
    simp only [build_category_attribute]
    set clean := data.map normalizeCell with hclean
    set uniques := uniqueFirst clean with huniq
    have hlen : (List.range' 1 uniques.length).length = uniques.length :=
      List.length_range' 1 1 uniques.length
    have hziplen : ((List.range' 1 uniques.length).zip uniques).length = uniques.length := by
      rw [List.length_zip, hlen, Nat.min_self]
    have hfst : ((List.range' 1 uniques.length).zip uniques).map Prod.fst
        = List.range' 1 uniques.length :=
      List.map_fst_zip _ _ (le_of_eq hlen)
    have hsnd : ((List.range' 1 uniques.length).zip uniques).map Prod.snd
        = uniques :=
      List.map_snd_zip _ _ (ge_of_eq hlen)
    refine ⟨?_, ?_, ?_, ?_, ?_⟩
    · rw [hfst, hziplen]
    · rw [hsnd]; exact nodup_uniqueFirst clean
    · intro v; rw [hsnd]; exact mem_uniqueFirst clean v
    · rw [hsnd]; exact pairwise_indexOf_uniqueFirst clean
    · intro c hc
      rcases List.mem_map.mp hc with ⟨v, hv, hcode⟩
      have hvmem : v ∈ uniques := (mem_uniqueFirst clean v).mpr hv
      have hidx : uniques.indexOf v < uniques.length :=
        List.indexOf_lt_length.mpr hvmem
      refine ⟨uniques.get ⟨uniques.indexOf v, hidx⟩, ?_⟩
      have hidx' : uniques.indexOf v < ((List.range' 1 uniques.length).zip uniques).length := by
        rw [hziplen]; exact hidx
      have := @List.getElem_zip ℕ String (List.range' 1 uniques.length) uniques
        (uniques.indexOf v) hidx'
      rw [List.getElem_range'] at this
      have hmem := List.getElem_mem hidx'
      rw [this] at hmem
      simpa [← hcode, Nat.add_comm, List.get_eq_getElem] using hmem

/-- Witness for C4: the general part evaluated on the concrete column. -/
theorem claim_c4_witness :
    (∃ v : String,
        (1, v) ∈ (build_category_attribute ([some "A", none, some "A", some "B"])).1)
    ∧ "" ∈ ((build_category_attribute ([some "A", none, some "A", some "B"])).1).map
        Prod.snd :=
  ⟨(claim_c4.2 [some "A", none, some "A", some "B"]).2.2.2.2 1 (by decide),
   ((claim_c4.2 [some "A", none, some "A", some "B"]).2.2.1 "").mpr (by decide)⟩

/-- C5 counterexample: uint64 is a numeric scalar kind of the data model,
yet classification coerces it to categorical with a warning, refuting the
claim that every column of a numeric kind yields a continuous attribute. -/
theorem claim_c5_counterexample :
    numericScalarKind "uint64" = true
    ∧ classifyDtype "uint64" = (AttrKind.categorical, true) := by
  constructor
  · decide
  · decide

/-- C5 amended: classification is decided by the declared dtype alone; the
dtypes of the recognized numeric list yield a continuous attribute, object
and str-prefixed dtypes yield a categorical attribute, and every other
dtype (numeric or not, uint64 included) yields a categorical attribute
together with a recorded warning rather than a failure. -/
theorem claim_c5_amended (dtype : String) :
    (dtype ∈ recognizedNumericDtypes →
      classifyDtype dtype = (AttrKind.continuous, false))
    ∧ ((dtype = "object" ∨ strStartsWith dtype "str") →
      classifyDtype dtype = (AttrKind.categorical, false))
    ∧ (¬(dtype = "object" ∨ strStartsWith dtype "str") →
        dtype ∉ recognizedNumericDtypes →
        classifyDtype dtype = (AttrKind.categorical, true)) := by
  refine ⟨?_, ?_, ?_⟩
  · intro h
    have hns : ¬(dtype = "object" ∨ strStartsWith dtype "str") := by
      simp only [recognizedNumericDtypes, List.mem_cons, List.mem_singleton,
        List.not_mem_nil, or_false] at h
      rcases h with h | h | h | h | h | h <;> subst h <;> decide
    simp [classifyDtype, hns, h]
  · intro h
    simp [classifyDtype, h]
  · intro h1 h2
    simp [classifyDtype, h1, h2]

/-- Witness for C5 amended: the three branches at concrete dtypes. -/
theorem claim_c5_amended_witness :
    classifyDtype "float64" = (AttrKind.continuous, false)
    ∧ classifyDtype "object" = (AttrKind.categorical, false)
    ∧ classifyDtype "uint32" = (AttrKind.categorical, true) :=
  ⟨(claim_c5_amended "float64").1 (by decide),
   (claim_c5_amended "object").2.1 (Or.inl rfl),
   (claim_c5_amended "uint32").2.2 (by decide) (by decide)⟩

/-- C6 counterexample: with one vertex, the segment (-1, 0) passes the
range check of the tool and its start index is stored wrapped to
18446744073709551615 by the uint64 cast — an out-of-range vertex reference
reaches storage, refuting the claim that every index outside
0..vertex_count-1 causes a pre-storage validation failure. -/
theorem claim_c6_counterexample :
    toolSegmentCheck 1 [(-1, 0)] = true
    ∧ storedSegmentIndices 1 [(-1, 0)] = some [(18446744073709551615, 0)]
    ∧ ¬(0 : ℤ) ≤ -1
    ∧ 1 - 1 < 18446744073709551615 := by
  refine ⟨by decide, ?_, by decide, by decide⟩
  decide

theorem intColMax_le (x : ℤ) (xs : List ℤ) :
    x ≤ intColMax x xs ∧ ∀ y ∈ xs, y ≤ intColMax x xs := by
  induction xs generalizing x with
  | nil => simp [intColMax]
  | cons b t ih =>
    have h := ih (max x b)
    have hfold : intColMax x (b :: t) = intColMax (max x b) t := by
      simp [intColMax]
    refine ⟨?_, ?_⟩
    · rw [hfold]; exact le_trans (le_max_left x b) h.1
    · intro y hy
      rw [hfold]
      rcases List.mem_cons.mp hy with hy | hy
      · rw [hy]; exact le_trans (le_max_right x b) h.1
      · exact h.2 y hy

/-- C6 amended: when the pre-storage range check of
build_and_create_line_segments passes, every start and end index is at most
vertex_count - 1; indices below zero are not rejected by the check (and are
stored wrapped), so only the upper bound is validated. -/
theorem claim_c6_amended (vertexCount : ℕ) (segs : List (ℤ × ℤ))
    (h : toolSegmentCheck vertexCount segs = true) :
    ∀ p ∈ segs, p.1 ≤ (vertexCount : ℤ) - 1 ∧ p.2 ≤ (vertexCount : ℤ) - 1 := by
  intro p hp
  cases segs with
  | nil => cases hp
  | cons s rest =>
    simp only [toolSegmentCheck, Bool.not_eq_true', Bool.or_eq_false_iff,
      decide_eq_false_iff_not, not_lt] at h
    rcases h with ⟨h1, h2⟩
    rcases List.mem_cons.mp hp with hp | hp
    · subst hp
      exact ⟨le_trans (intColMax_le p.1 (rest.map Prod.fst)).1 h1,
             le_trans (intColMax_le p.2 (rest.map Prod.snd)).1 h2⟩
    · constructor
      · exact le_trans ((intColMax_le s.1 (rest.map Prod.fst)).2 p.1
          (List.mem_map.mpr ⟨p, hp, rfl⟩)) h1
      · exact le_trans ((intColMax_le s.2 (rest.map Prod.snd)).2 p.2
          (List.mem_map.mpr ⟨p, hp, rfl⟩)) h2

/-- Witness for C6 amended: two vertices, one in-range segment. -/
theorem claim_c6_amended_witness :
    (0 : ℤ) ≤ ((2 : ℕ) : ℤ) - 1 ∧ (1 : ℤ) ≤ ((2 : ℕ) : ℤ) - 1 :=
  claim_c6_amended 2 [(0, 1)] (by decide) (0, 1) (by decide)

/-- C9 counterexample: with all vertex and all segment columns missing, the
validation prefix of LineSegmentsBuilder.build raises an error naming only
the missing vertex columns — the missing segment columns are not collected
into the report, refuting the claim that every builder collects all
missing-column errors across all required sets before reporting. -/
theorem claim_c9_counterexample :
    lineSegmentsBuilderValidate [] [] ["x", "y", "z"] ["s", "e"]
      = .error ["x", "y", "z"]
    ∧ "s" ∉ ["x", "y", "z"] := by
  constructor
  · rfl
  · decide

/-- C9 amended: the tool entry points collect every missing-column error
across all required sets and report them together (shown for the collar,
max-depth, and survey checks of build_and_create_downhole_collection); the
builder classes themselves stop at the first missing set. -/
theorem claim_c9_amended (collarCols surveyCols requiredCollar requiredSurvey :
    List String) (maxDepthCol : Option String) :
    (requiredCollar.filter (fun c => c ∉ collarCols) ≠ [] →
      requiredCollar.filter (fun c => c ∉ collarCols)
        ∈ downholeToolValidate collarCols surveyCols requiredCollar
            requiredSurvey maxDepthCol)
    ∧ (requiredSurvey.filter (fun c => c ∉ surveyCols) ≠ [] →
      requiredSurvey.filter (fun c => c ∉ surveyCols)
        ∈ downholeToolValidate collarCols surveyCols requiredCollar
            requiredSurvey maxDepthCol)
    ∧ (∀ c, maxDepthCol = some c → c ∉ collarCols →
      [c] ∈ downholeToolValidate collarCols surveyCols requiredCollar
              requiredSurvey maxDepthCol) := by
  refine ⟨?_, ?_, ?_⟩
  · intro h
    simp only [downholeToolValidate, if_pos h, List.mem_append, List.mem_singleton]
    tauto
  · intro h
    simp only [downholeToolValidate, if_pos h, List.mem_append, List.mem_singleton]
    tauto
  · intro c hc hmem
    subst hc
    simp only [downholeToolValidate, if_pos hmem, List.mem_append, List.mem_singleton]
    tauto

/-- Witness for C9 amended: all three error classes present at once. -/
theorem claim_c9_amended_witness :
    ["x", "y", "z"] ∈ downholeToolValidate ["id"] ["sid"] ["id", "x", "y", "z"]
        ["sid", "depth", "azi", "dip"] (some "md")
    ∧ ["depth", "azi", "dip"] ∈ downholeToolValidate ["id"] ["sid"]
        ["id", "x", "y", "z"] ["sid", "depth", "azi", "dip"] (some "md")
    ∧ ["md"] ∈ downholeToolValidate ["id"] ["sid"] ["id", "x", "y", "z"]
        ["sid", "depth", "azi", "dip"] (some "md") := by
  have h := claim_c9_amended ["id"] ["sid"] ["id", "x", "y", "z"]
    ["sid", "depth", "azi", "dip"] (some "md")
  exact ⟨by simpa using h.1 (by decide), by simpa using h.2.1 (by decide),
         h.2.2 "md" rfl (by decide)⟩

/-- The warning an attempted column contributes (none on success). -/
def attrWarn {α : Type} (f : String → Except String α) (c : String) :
    Option String :=
  match f c with
  | .ok _ => none
  | .error e => some (attrFailMsg c e)

theorem attrFold_eq {α : Type} (f : String → Except String α)
    (dfCols exclude : List String) :
    ∀ (columns : List String) (a : List α) (w : List String),
      columns.foldl (attrStep f dfCols exclude) (a, w)
        = (a ++ (eligibleCols dfCols columns exclude).filterMap
              (fun c => (f c).toOption),
           w ++ (eligibleCols dfCols columns exclude).filterMap (attrWarn f)) := by
  intro columns
  induction columns with
  | nil => intro a w; simp [eligibleCols]
  | cons c cs ih =>
    intro a w
    by_cases hc : c ∈ dfCols ∧ c ∉ exclude
    · have hel : eligibleCols dfCols (c :: cs) exclude
          = c :: eligibleCols dfCols cs exclude := by
        simp [eligibleCols, List.filter_cons, hc]
      cases hfc : f c with
      | ok x =>
        have hstep : attrStep f dfCols exclude (a, w) c = (a ++ [x], w) := by
          simp [attrStep, hc, hfc]
        simp [List.foldl_cons, hstep, ih, hel, List.filterMap_cons, hfc,
          attrWarn, Except.toOption]
      | error e =>
        have hstep : attrStep f dfCols exclude (a, w) c
            = (a, w ++ [attrFailMsg c e]) := by
          simp [attrStep, hc, hfc]
        simp [List.foldl_cons, hstep, ih, hel, List.filterMap_cons, hfc,
          attrWarn, Except.toOption]
    · have hel : eligibleCols dfCols (c :: cs) exclude
          = eligibleCols dfCols cs exclude := by
        simp [eligibleCols, List.filter_cons, hc]
      have hstep : attrStep f dfCols exclude (a, w) c = (a, w) := by
        simp [attrStep, hc]
      simp [List.foldl_cons, hstep, ih, hel]

/-- C8: if building one attribute column fails, the builder records a
warning carrying that column name and the exception text, omits that
attribute from the result (a failed column contributes no attribute), and
the attribute list is exactly the successes over the attempted columns in
order — the entity build is not aborted. -/
theorem claim_c8 {α : Type} (f : String → Except String α)
    (dfCols columns exclude : List String) (col e : String)
    (h1 : col ∈ columns) (h2 : col ∈ dfCols) (h3 : col ∉ exclude)
    (hf : f col = .error e) :
    attrFailMsg col e ∈ (build_attributes f dfCols columns exclude).2
    ∧ (f col).toOption = none
    ∧ (build_attributes f dfCols columns exclude).1
        = (eligibleCols dfCols columns exclude).filterMap
            (fun c => (f c).toOption) := by
  have hba : build_attributes f dfCols columns exclude
      = ((eligibleCols dfCols columns exclude).filterMap (fun c => (f c).toOption),
         (eligibleCols dfCols columns exclude).filterMap (attrWarn f)) := by
    have := attrFold_eq f dfCols exclude columns [] []
    simpa [build_attributes] using this
  refine ⟨?_, ?_, ?_⟩
  · rw [hba]
    refine List.mem_filterMap.mpr ⟨col, ?_, ?_⟩
    · exact List.mem_filter.mpr ⟨h1, by simp [h2, h3]⟩
    · simp [attrWarn, hf]
  · simp [hf, Except.toOption]
  · rw [hba]

/-- Witness for C8: column bad fails with text boom, column good survives. -/
theorem claim_c8_witness :
    attrFailMsg "bad" "boom"
      ∈ (build_attributes
          (fun c => if c = "bad" then Except.error "boom" else Except.ok c)
          ["good", "bad"] ["good", "bad"] []).2
    ∧ ((fun c => if c = "bad" then Except.error "boom" else Except.ok c)
        "bad").toOption = none
    ∧ (build_attributes
          (fun c => if c = "bad" then Except.error "boom" else Except.ok c)
          ["good", "bad"] ["good", "bad"] []).1
        = (eligibleCols ["good", "bad"] ["good", "bad"] []).filterMap
            (fun c => ((fun c => if c = "bad" then Except.error "boom"
                else Except.ok c) c).toOption) :=
  claim_c8 (fun c => if c = "bad" then Except.error "boom" else Except.ok c)
    ["good", "bad"] ["good", "bad"] [] "bad" "boom"
    (by decide) (by decide) (by decide) rfl

/-! ## Order lemmas for the bounding-box extrema -/

theorem fpLe_trans : ∀ {a b c : FP},
    fpLe a b = true → fpLe b c = true → fpLe a c = true := by
  intro a b c hab hbc
  cases a <;> cases b <;> cases c <;> simp_all [fpLe] <;> linarith

theorem fpLe_total (a b : FP) (ha : fpNotna a = true) (hb : fpNotna b = true) :
    fpLe a b = true ∨ fpLe b a = true := by
  cases a <;> cases b <;> simp_all [fpLe, fpNotna]
  exact le_total _ _

theorem fpLe_refl (a : FP) (ha : fpNotna a = true) : fpLe a a = true := by
  cases a <;> simp_all [fpLe, fpNotna]

theorem fpMin2_eq_ite (a b : FP) (ha : fpNotna a = true) (hb : fpNotna b = true) :
    fpMin2 a b = if fpLe a b then a else b := by
  cases a <;> cases b <;> simp_all [fpMin2, fpNotna]

theorem fpMax2_eq_ite (a b : FP) (ha : fpNotna a = true) (hb : fpNotna b = true) :
    fpMax2 a b = if fpLe a b then b else a := by
  cases a <;> cases b <;> simp_all [fpMax2, fpNotna]

theorem fpMin2_notna {a b : FP} (ha : fpNotna a = true) (hb : fpNotna b = true) :
    fpNotna (fpMin2 a b) = true := by
  rw [fpMin2_eq_ite a b ha hb]
  split <;> assumption

theorem fpMax2_notna {a b : FP} (ha : fpNotna a = true) (hb : fpNotna b = true) :
    fpNotna (fpMax2 a b) = true := by
  rw [fpMax2_eq_ite a b ha hb]
  split <;> assumption

theorem fpMin2_le_left (a b : FP) (ha : fpNotna a = true) (hb : fpNotna b = true) :
    fpLe (fpMin2 a b) a = true := by
  rw [fpMin2_eq_ite a b ha hb]
  by_cases h : fpLe a b = true
  · rw [if_pos h]; exact fpLe_refl a ha
  · rw [if_neg h]; exact (fpLe_total a b ha hb).resolve_left h

theorem fpMin2_le_right (a b : FP) (ha : fpNotna a = true) (hb : fpNotna b = true) :
    fpLe (fpMin2 a b) b = true := by
  rw [fpMin2_eq_ite a b ha hb]
  by_cases h : fpLe a b = true
  · rw [if_pos h]; exact h
  · rw [if_neg h]; exact fpLe_refl b hb

theorem fpMax2_ge_left (a b : FP) (ha : fpNotna a = true) (hb : fpNotna b = true) :
    fpLe a (fpMax2 a b) = true := by
  rw [fpMax2_eq_ite a b ha hb]
  by_cases h : fpLe a b = true
  · rw [if_pos h]; exact h
  · rw [if_neg h]; exact fpLe_refl a ha

theorem minFold_le (l : List FP) :
    ∀ a : FP, fpNotna a = true → (∀ x ∈ l, fpNotna x = true) →
      fpNotna (l.foldl fpMin2 a) = true
      ∧ fpLe (l.foldl fpMin2 a) a = true
      ∧ ∀ x ∈ l, fpLe (l.foldl fpMin2 a) x = true := by
  induction l with
  | nil =>
    intro a ha _
    exact ⟨ha, fpLe_refl a ha, by simp⟩
  | cons b t ih =>
    intro a ha hl
    have hb : fpNotna b = true := hl b (List.mem_cons_self b t)
    have ht : ∀ x ∈ t, fpNotna x = true :=
      fun x hx => hl x (List.mem_cons_of_mem b hx)
    have hmn : fpNotna (fpMin2 a b) = true := fpMin2_notna ha hb
    have h := ih (fpMin2 a b) hmn ht
    have hfold : (b :: t).foldl fpMin2 a = t.foldl fpMin2 (fpMin2 a b) := rfl
    rw [hfold]
    refine ⟨h.1, ?_, ?_⟩
    · exact fpLe_trans h.2.1 (fpMin2_le_left a b ha hb)
    · intro x hx
      rcases List.mem_cons.mp hx with hx | hx
      · rw [hx]; exact fpLe_trans h.2.1 (fpMin2_le_right a b ha hb)
      · exact h.2.2 x hx

theorem maxFold_ge (l : List FP) :
    ∀ a : FP, fpNotna a = true → (∀ x ∈ l, fpNotna x = true) →
      fpNotna (l.foldl fpMax2 a) = true
      ∧ fpLe a (l.foldl fpMax2 a) = true := by
  induction l with
  | nil =>
    intro a ha _
    exact ⟨ha, fpLe_refl a ha⟩
  | cons b t ih =>
    intro a ha hl
    have hb : fpNotna b = true := hl b (List.mem_cons_self b t)
    have ht : ∀ x ∈ t, fpNotna x = true :=
      fun x hx => hl x (List.mem_cons_of_mem b hx)
    have hmx : fpNotna (fpMax2 a b) = true := fpMax2_notna ha hb
    have h := ih (fpMax2 a b) hmx ht
    have hfold : (b :: t).foldl fpMax2 a = t.foldl fpMax2 (fpMax2 a b) := rfl
    rw [hfold]
    exact ⟨h.1, fpLe_trans (fpMax2_ge_left a b ha hb) h.2⟩

theorem fpMin2_nan_left (b : FP) : fpMin2 .nan b = b := by
  cases b <;> rfl

theorem fpMax2_nan_left (b : FP) : fpMax2 .nan b = b := by
  cases b <;> rfl

theorem colMin_cons (b : FP) (t : List FP) :
    colMin (b :: t) = t.foldl fpMin2 b := by
  simp [colMin, List.foldl_cons, fpMin2_nan_left]

theorem colMax_cons (b : FP) (t : List FP) :
    colMax (b :: t) = t.foldl fpMax2 b := by
  simp [colMax, List.foldl_cons, fpMax2_nan_left]

theorem colMin_le_colMax (l : List FP) (hne : l ≠ [])
    (h : ∀ x ∈ l, fpNotna x = true) :
    fpLe (colMin l) (colMax l) = true := by
  cases l with
  | nil => exact absurd rfl hne
  | cons b t =>
    have hb : fpNotna b = true := h b (List.mem_cons_self b t)
    have ht : ∀ x ∈ t, fpNotna x = true :=
      fun x hx => h x (List.mem_cons_of_mem b hx)
    rw [colMin_cons, colMax_cons]
    exact fpLe_trans ((minFold_le t b hb ht).2.1) ((maxFold_ge t b hb ht).2)

theorem fpLe_toQ {a b : FP} (ha : fpIsFinite a = true) (hb : fpIsFinite b = true)
    (h : fpLe a b = true) : fpToQ a ≤ fpToQ b := by
  cases a <;> cases b <;> simp_all [fpIsFinite, fpLe, fpToQ]

/-- C3: bounding-box construction fails exactly when no row has all three
coordinates non-missing or some computed extremum is non-finite; on success
the six returned scalars satisfy min_x ≤ max_x, min_y ≤ max_y, and
min_z ≤ max_z. -/
theorem claim_c3 (rows : List Row3) :
    ((∃ msg, build_bounding_box rows = .error msg) ↔
      ((¬∃ r ∈ rows, validRow3 r = true)
        ∨ ∃ e ∈ bboxExtrema rows, fpIsFinite e = false))
    ∧ ∀ bb, build_bounding_box rows = .ok bb →
        bb.min_x ≤ bb.max_x ∧ bb.min_y ≤ bb.max_y ∧ bb.min_z ≤ bb.max_z := by
  have hvalid_mem : ∀ r ∈ validRows rows, validRow3 r = true := by
    intro r hr
    exact (List.mem_filter.mp hr).2
  by_cases hv : (validRows rows).isEmpty
  · have hbuild : build_bounding_box rows
        = .error "No valid coordinates found for bounding box calculation" := by
      simp [build_bounding_box, hv]
    constructor
    · constructor
      · intro _
        left
        intro ⟨r, hr, hvr⟩
        have : r ∈ validRows rows :=
          List.mem_filter.mpr ⟨hr, hvr⟩
        rw [List.isEmpty_iff.mp hv] at this
        cases this
      · intro _
        exact ⟨_, hbuild⟩
    · intro bb hbb
      rw [hbuild] at hbb
      cases hbb
  · by_cases hfin : (bboxExtrema rows).all fpIsFinite
    · have hne : validRows rows ≠ [] := by
        intro h
        rw [h] at hv
        exact hv rfl
      obtain ⟨r0, v', hv'⟩ : ∃ r0 v', validRows rows = r0 :: v' := by
        cases hlist : validRows rows with
        | nil => exact absurd hlist hne
        | cons r0 v' => exact ⟨r0, v', rfl⟩
      have hbuild : build_bounding_box rows
          = .ok { min_x := fpToQ ((bboxExtrema rows).getD 0 .nan),
                  max_x := fpToQ ((bboxExtrema rows).getD 1 .nan),
                  min_y := fpToQ ((bboxExtrema rows).getD 2 .nan),
                  max_y := fpToQ ((bboxExtrema rows).getD 3 .nan),
                  min_z := fpToQ ((bboxExtrema rows).getD 4 .nan),
                  max_z := fpToQ ((bboxExtrema rows).getD 5 .nan) } := by
        simp [build_bounding_box, hv, hfin]
      constructor
      · constructor
        · intro ⟨msg, hmsg⟩
          rw [hbuild] at hmsg
          cases hmsg
        · intro h
          rcases h with h | ⟨e, he, hfe⟩
          · exact absurd ⟨r0, by
              have : r0 ∈ validRows rows := hv' ▸ List.mem_cons_self r0 v'
              exact ⟨(List.mem_filter.mp this).1, (List.mem_filter.mp this).2⟩⟩ h
          · have := List.all_eq_true.mp hfin e he
            rw [hfe] at this
            cases this
      · intro bb hbb
        rw [hbuild] at hbb
        injection hbb with hbb
        subst hbb
        have hext : ∀ e ∈ bboxExtrema rows, fpIsFinite e = true :=
          List.all_eq_true.mp hfin
        have axis : ∀ proj : Row3 → FP,
            (∀ r, validRow3 r = true → fpNotna (proj r) = true) →
            fpLe (colMin ((validRows rows).map proj))
              (colMax ((validRows rows).map proj)) = true := by
          intro proj hproj
          apply colMin_le_colMax
          · rw [hv']; simp
          · intro x hx
            rcases List.mem_map.mp hx with ⟨r, hr, hrx⟩
            rw [← hrx]
            exact hproj r (hvalid_mem r hr)
        have hx := axis Row3.x (fun r hr => by
          simp [validRow3] at hr; exact hr.1.1)
        have hy := axis Row3.y (fun r hr => by
          simp [validRow3] at hr; exact hr.1.2)
        have hz := axis Row3.z (fun r hr => by
          simp [validRow3] at hr; exact hr.2)
        have hget : ∀ i : ℕ, i < 6 →
            (bboxExtrema rows).getD i .nan ∈ bboxExtrema rows := by
          intro i hi
          have hlen : (bboxExtrema rows).length = 6 := by
            simp [bboxExtrema]
          have := List.getD_eq_getElem (bboxExtrema rows) .nan (by omega :
            i < (bboxExtrema rows).length)
          rw [this]
          exact List.getElem_mem _
        refine ⟨?_, ?_, ?_⟩
        · exact fpLe_toQ (hext _ (hget 0 (by omega))) (hext _ (hget 1 (by omega)))
            (by simpa [bboxExtrema] using hx)
        · exact fpLe_toQ (hext _ (hget 2 (by omega))) (hext _ (hget 3 (by omega)))
            (by simpa [bboxExtrema] using hy)
        · exact fpLe_toQ (hext _ (hget 4 (by omega))) (hext _ (hget 5 (by omega)))
            (by simpa [bboxExtrema] using hz)
    · have hbuild : build_bounding_box rows
          = .error "Bounding box extremum is not finite" := by
        simp [build_bounding_box, hv, hfin]
      constructor
      · constructor
        · intro _
          right
          rcases List.all_eq_false.mp (Bool.not_eq_true _ ▸
            (by simpa using hfin : ¬(bboxExtrema rows).all fpIsFinite = true)) with
            ⟨e, he, hfe⟩
          exact ⟨e, he, by simpa using hfe⟩
        · intro _
          exact ⟨_, hbuild⟩
      · intro bb hbb
        rw [hbuild] at hbb
        cases hbb

/-- Witness for C3: two all-finite rows give the box (0,0,0)-(2,1,5). -/
theorem claim_c3_witness :
    ({ min_x := 0, max_x := 2, min_y := 0, max_y := 1, min_z := 0,
       max_z := 5 } : BoundingBox).min_x
        ≤ ({ min_x := 0, max_x := 2, min_y := 0, max_y := 1, min_z := 0,
             max_z := 5 } : BoundingBox).max_x
    ∧ ({ min_x := 0, max_x := 2, min_y := 0, max_y := 1, min_z := 0,
         max_z := 5 } : BoundingBox).min_y
        ≤ ({ min_x := 0, max_x := 2, min_y := 0, max_y := 1, min_z := 0,
             max_z := 5 } : BoundingBox).max_y
    ∧ ({ min_x := 0, max_x := 2, min_y := 0, max_y := 1, min_z := 0,
         max_z := 5 } : BoundingBox).min_z
        ≤ ({ min_x := 0, max_x := 2, min_y := 0, max_y := 1, min_z := 0,
             max_z := 5 } : BoundingBox).max_z :=
  (claim_c3 [⟨.num 0, .num 0, .num 0⟩, ⟨.num 2, .num 1, .num 5⟩]).2
    { min_x := 0, max_x := 2, min_y := 0, max_y := 1, min_z := 0, max_z := 5 }
    (by rfl)

/-! ## Round-trip lemmas (C2) -/

theorem parseRef_refDict (r : ArrayRef) : parseRef (refDict r) = some r := by
  cases r
  rfl

theorem parseAttr_attrDict (a : AttrT) : parseAttr (attrDict a) = some a := by
  cases a with
  | cont c => cases c; rfl
  | cat c => cases c; rfl

theorem parseBBox_bboxDict (b : BoundingBox) : parseBBox (bboxDict b) = some b := by
  cases b
  rfl

theorem mapM_parseAttr_attrDict (attrs : List AttrT) :
    (attrs.map attrDict).mapM parseAttr = some attrs := by
  induction attrs with
  | nil => rfl
  | cons a t ih =>
    rw [List.map_cons, List.mapM_cons, parseAttr_attrDict a, ih]
    rfl

/-- Loop form of the attribute list round trip (the shape `simp` leaves
after normalizing `List.mapM`). -/
theorem mapM_loop_parseAttr (attrs : List AttrT) :
    List.mapM.loop parseAttr (attrs.map attrDict) [] = some attrs := by
  have h := mapM_parseAttr_attrDict attrs
  simpa [List.mapM] using h

theorem parseCatData_catDataDict (c : CategoryDataT) :
    parseCatData (catDataDict c) = some c := by
  cases c
  rfl

theorem parseIntervalCollection_dict (c : IntervalCollectionT) :
    parseIntervalCollection (intervalCollectionDict c) = some c := by
  cases c with
  | mk name intervals holes attributes =>
    simp [parseIntervalCollection, intervalCollectionDict, getField, asObj,
      asStr, asArr, parseRef_refDict, mapM_loop_parseAttr]

theorem mapM_parseIntervalCollection (cs : List IntervalCollectionT) :
    (cs.map intervalCollectionDict).mapM parseIntervalCollection = some cs := by
  induction cs with
  | nil => rfl
  | cons c t ih =>
    rw [List.map_cons, List.mapM_cons, parseIntervalCollection_dict c, ih]
    rfl

theorem mapM_loop_parseIntervalCollection (cs : List IntervalCollectionT) :
    List.mapM.loop parseIntervalCollection (cs.map intervalCollectionDict) []
      = some cs := by
  have h := mapM_parseIntervalCollection cs
  simpa [List.mapM] using h

theorem mapM_parseTagEntry (tags : List (String × String)) :
    (tags.map (fun p => (p.1, JVal.jstr p.2))).mapM parseTagEntry
      = some tags := by
  induction tags with
  | nil => rfl
  | cons p t ih =>
    rw [List.map_cons, List.mapM_cons, ih]
    rfl

theorem mapM_loop_parseTagEntry (tags : List (String × String)) :
    List.mapM.loop parseTagEntry (tags.map (fun p => (p.1, JVal.jstr p.2))) []
      = some tags := by
  have h := mapM_parseTagEntry tags
  simpa [List.mapM] using h

theorem parseBody_bodyDict (b : EntityBody) : parseBody (bodyDict b) = some b := by
  cases b with
  | pointset coordinates attributes =>
    simp [parseBody, bodyDict, getField, asObj, asStr, asArr,
      parseRef_refDict, mapM_loop_parseAttr]
  | lineNetwork vertices vertexAttributes indices segmentAttributes =>
    simp [parseBody, bodyDict, getField, asObj, asStr, asArr,
      parseRef_refDict, mapM_loop_parseAttr]
  | holeCollection coordinates holeId path holes collections =>
    simp [parseBody, bodyDict, getField, asObj, asStr, asArr,
      parseRef_refDict, parseCatData_catDataDict,
      mapM_loop_parseIntervalCollection]
  | flatIntervals startLoc endLoc midLoc fromTo holeId attributes =>
    simp [parseBody, bodyDict, getField, asObj, asStr, asArr,
      parseRef_refDict, parseCatData_catDataDict, mapM_loop_parseAttr]

/-- C2: for every entity tree produced by a builder — point set, line
network, hole collection, or flat intervals, including the free-form tag
map — serializing it to the plain nested-map form and immediately
re-parsing that form against the target schema succeeds, and the
validation round-trip accepts it (over the spec-modelled schema library). -/
theorem claim_c2 (t : EntityTree) :
    entityFromDict (entityAsDict t) = some t
    ∧ validate_object (entityAsDict t) = .ok t := by
  have hparse : entityFromDict (entityAsDict t) = some t := by
    cases t with
    | mk name description tags crs bbox body =>
      simp [entityAsDict, entityFromDict, getField, asObj, asStr, parseTags,
        parseBBox_bboxDict, parseBody_bodyDict, mapM_loop_parseTagEntry]
  exact ⟨hparse, by simp [validate_object, hparse]⟩

/-! ## Frame preservation (C10) -/

theorem getElem?_append_left' {α : Type} (l₁ l₂ : List α) (i : ℕ)
    (h : i < l₁.length) : (l₁ ++ l₂)[i]? = l₁[i]? := by
  rw [List.getElem?_append]
  exact if_pos h

/-- C10: a build call never changes the frames the caller passed in: both
the downhole pipeline (sorting, the dip negation under invert_z) and the
pointset pipeline (column selection, the valid-row mask) write only to
freshly allocated frames, so every store entry that existed before the call
is unchanged after it. -/
theorem claim_c10 (store : List Frame) :
    (∀ (invert : Bool) (collarIdCol surveyIdCol dipCol : String)
        (collarRef surveyRef i : ℕ), i < store.length →
      ((downholeFrameEffects invert collarIdCol surveyIdCol dipCol store
          collarRef surveyRef).1)[i]? = store[i]?)
    ∧ (∀ (xc yc zc : String) (dfRef i : ℕ), i < store.length →
      ((pointsetFrameEffects xc yc zc store dfRef).1)[i]? = store[i]?) := by
  constructor
  · intro invert cic sic dc cRef sRef i hi
    simp only [downholeFrameEffects]
    cases invert with
    | false =>
      simp only [Bool.false_eq_true, if_neg (by simp : ¬False)]
      rw [getElem?_append_left' _ _ i (by simp; omega),
        getElem?_append_left' _ _ i hi]
    | true =>
      rw [if_pos rfl]
      set a1 := sortValues (store.getD cRef default) cic with ha1
      set s1 := store ++ [a1] with hs1
      set a2 := sortValues (s1.getD sRef default) sic with ha2
      set s2 := s1 ++ [a2] with hs2
      have h1 : s2.length ≠ i := by
        rw [hs2, hs1]; simp; omega
      rw [List.getElem?_set_ne h1]
      have h2 : i < s2.length := by rw [hs2, hs1]; simp; omega
      rw [getElem?_append_left' s2 _ i h2]
      have h3 : i < s1.length := by rw [hs1]; simp; omega
      rw [hs2, getElem?_append_left' s1 _ i h3, hs1,
        getElem?_append_left' store _ i hi]
  · intro xc yc zc dfRef i hi
    simp only [pointsetFrameEffects]
    rw [getElem?_append_left' _ _ i (by simp; omega),
      getElem?_append_left' _ _ i hi]

/-- Witness for C10: a one-frame store, checked at index 0 for both
pipelines, with the dip inversion branch taken. -/
theorem claim_c10_witness :
    ((downholeFrameEffects true "id" "sid" "dip"
        [⟨["id", "dip"], [[Cell.str "a", Cell.num 5]]⟩] 0 0).1)[0]?
      = some ⟨["id", "dip"], [[Cell.str "a", Cell.num 5]]⟩
    ∧ ((pointsetFrameEffects "x" "y" "z"
        [⟨["id", "dip"], [[Cell.str "a", Cell.num 5]]⟩] 0).1)[0]?
      = some ⟨["id", "dip"], [[Cell.str "a", Cell.num 5]]⟩ := by
  have h := claim_c10 [⟨["id", "dip"], [[Cell.str "a", Cell.num 5]]⟩]
  constructor
  · rw [h.1 true "id" "sid" "dip" 0 0 0 (by decide)]
    rfl
  · rw [h.2 "x" "y" "z" 0 0 (by decide)]
    rfl

/-! ## Lemmas on the grouping-index scan -/

/-- Sum of the count fields of a list of grouping records. -/
def recCountSum (l : List HoleRec) : ℕ := (l.map HoleRec.count).sum

theorem nodupKeys_eq {l : List (ℕ × String)} (h : (l.map Prod.fst).Nodup)
    {k : ℕ} {a b : String} (ha : (k, a) ∈ l) (hb : (k, b) ∈ l) : a = b := by
  induction l with
  | nil => cases ha
  | cons p t ih =>
    rw [List.map_cons, List.nodup_cons] at h
    rcases List.mem_cons.mp ha with ha | ha <;>
      rcases List.mem_cons.mp hb with hb | hb
    · rw [← ha] at hb
      exact (Prod.mk.injEq _ _ _ _ |>.mp hb.symm).2
    · exact absurd (List.mem_map.mpr ⟨(k, b), hb, by rw [← ha]⟩) h.1
    · exact absurd (List.mem_map.mpr ⟨(k, a), ha, by rw [← hb]⟩) h.1
    · exact ih h.2 ha hb

theorem nodupValues_eq {l : List (ℕ × String)} (h : (l.map Prod.snd).Nodup)
    {v : String} {a b : ℕ} (ha : (a, v) ∈ l) (hb : (b, v) ∈ l) : a = b := by
  induction l with
  | nil => cases ha
  | cons p t ih =>
    rw [List.map_cons, List.nodup_cons] at h
    rcases List.mem_cons.mp ha with ha | ha <;>
      rcases List.mem_cons.mp hb with hb | hb
    · rw [← ha] at hb
      exact (Prod.mk.injEq _ _ _ _ |>.mp hb.symm).1
    · exact absurd (List.mem_map.mpr ⟨(b, v), hb, by rw [← ha]⟩) h.1
    · exact absurd (List.mem_map.mpr ⟨(a, v), ha, by rw [← hb]⟩) h.1
    · exact ih h.2 ha hb

theorem idToKey_mem {lookup : List (ℕ × String)} {v : String} {k : ℕ}
    (h : idToKey lookup v = some k) : (k, v) ∈ lookup := by
  unfold idToKey at h
  cases hfind : lookup.reverse.find? (fun p => p.2 = v) with
  | none => rw [hfind] at h; cases h
  | some p =>
    rw [hfind] at h
    have hp1 : p.1 = k := by
      simpa using h
    have hmem : p ∈ lookup.reverse := List.mem_of_find?_eq_some hfind
    have hpv : p.2 = v := by
      have := List.find?_some hfind
      simpa using this
    have : p ∈ lookup := List.mem_reverse.mp hmem
    rw [← hp1, ← hpv]
    exact this

theorem idToKey_isSome_of_mem {lookup : List (ℕ × String)} {v : String}
    (h : v ∈ lookup.map Prod.snd) : (idToKey lookup v).isSome := by
  unfold idToKey
  rcases List.mem_map.mp h with ⟨p, hp, hpv⟩
  have : (lookup.reverse.find? (fun q => q.2 = v)).isSome := by
    rw [List.find?_isSome]
    exact ⟨p, List.mem_reverse.mpr hp, by simp [hpv]⟩
  cases hfind : lookup.reverse.find? (fun q => q.2 = v) with
  | none => rw [hfind] at this; cases this
  | some p' => simp

theorem idToKey_inj {lookup : List (ℕ × String)}
    (hkeys : (lookup.map Prod.fst).Nodup) {v1 v2 : String} {k : ℕ}
    (h1 : idToKey lookup v1 = some k) (h2 : idToKey lookup v2 = some k) :
    v1 = v2 :=
  nodupKeys_eq hkeys (idToKey_mem h1) (idToKey_mem h2)

theorem idToKey_eq_of_mem {lookup : List (ℕ × String)}
    (hvals : (lookup.map Prod.snd).Nodup) {k : ℕ} {v : String}
    (h : (k, v) ∈ lookup) : idToKey lookup v = some k := by
  have hsome : (idToKey lookup v).isSome :=
    idToKey_isSome_of_mem (List.mem_map.mpr ⟨(k, v), h, rfl⟩)
  cases hik : idToKey lookup v with
  | none => rw [hik] at hsome; cases hsome
  | some k' =>
    have := idToKey_mem hik
    rw [nodupValues_eq hvals this h]

theorem scanRuns_sum (lookup : List (ℕ × String)) :
    ∀ (ids : List String) (cur : Option String) (off cnt idx : ℕ),
      (∀ id ∈ ids, (idToKey lookup id).isSome) →
      (∀ h, cur = some h → (idToKey lookup h).isSome) →
      recCountSum (scanRuns lookup ids cur off cnt idx)
        = (match cur with | none => 0 | some _ => cnt) + ids.length := by
  intro ids
  induction ids with
  | nil =>
    intro cur off cnt idx _ hcur
    cases cur with
    | none => simp [scanRuns, closeRun, recCountSum]
    | some h =>
      obtain ⟨k, hk⟩ := Option.isSome_iff_exists.mp (hcur h rfl)
      simp [scanRuns, closeRun, hk, recCountSum]
  | cons id rest ih =>
    intro cur off cnt idx hids hcur
    have hidsome : (idToKey lookup id).isSome :=
      hids id (List.mem_cons_self id rest)
    have hrest : ∀ x ∈ rest, (idToKey lookup x).isSome :=
      fun x hx => hids x (List.mem_cons_of_mem id hx)
    by_cases hcase : some id = cur
    · simp only [scanRuns, if_pos hcase]
      rw [ih cur off (cnt + 1) (idx + 1) hrest hcur]
      cases cur with
      | none => cases hcase
      | some h => simp [List.length_cons]; omega
    · simp only [scanRuns, if_neg hcase]
      have h2 := ih (some id) idx 1 (idx + 1) hrest
        (fun h hh => by
          injection hh with hh
          rw [← hh]
          exact hidsome)
      have happ : recCountSum (closeRun lookup cur off cnt
            ++ scanRuns lookup rest (some id) idx 1 (idx + 1))
          = recCountSum (closeRun lookup cur off cnt)
            + recCountSum (scanRuns lookup rest (some id) idx 1 (idx + 1)) := by
        simp [recCountSum]
      rw [happ, h2]
      cases cur with
      | none => simp [closeRun, recCountSum]; omega
      | some h =>
        obtain ⟨k, hk⟩ := Option.isSome_iff_exists.mp (hcur h rfl)
        simp [closeRun, hk, recCountSum]
        omega

theorem scanRuns_keys (lookup : List (ℕ × String)) :
    ∀ (ids : List String) (cur : Option String) (off cnt idx : ℕ) (k : ℕ),
      k ∈ (scanRuns lookup ids cur off cnt idx).map HoleRec.hole_index →
      (∃ id ∈ ids, idToKey lookup id = some k)
      ∨ (∃ h, cur = some h ∧ idToKey lookup h = some k) := by
  intro ids
  induction ids with
  | nil =>
    intro cur off cnt idx k hk
    right
    cases cur with
    | none => simp [scanRuns, closeRun] at hk
    | some h =>
      cases hfind : idToKey lookup h with
      | none => simp [scanRuns, closeRun, hfind] at hk
      | some k2 =>
        simp [scanRuns, closeRun, hfind] at hk
        exact ⟨h, rfl, by rw [hfind, hk]⟩
  | cons id rest ih =>
    intro cur off cnt idx k hk
    by_cases hcase : some id = cur
    · simp only [scanRuns, if_pos hcase] at hk
      rcases ih cur off (cnt + 1) (idx + 1) k hk with h | h
      · rcases h with ⟨x, hx, hxk⟩
        exact Or.inl ⟨x, List.mem_cons_of_mem id hx, hxk⟩
      · exact Or.inr h
    · simp only [scanRuns, if_neg hcase, List.map_append, List.mem_append] at hk
      rcases hk with hk | hk
      · right
        cases cur with
        | none => simp [closeRun] at hk
        | some h =>
          cases hfind : idToKey lookup h with
          | none => simp [closeRun, hfind] at hk
          | some k2 =>
            simp [closeRun, hfind] at hk
            exact ⟨h, rfl, by rw [hfind, hk]⟩
      · rcases ih (some id) idx 1 (idx + 1) k hk with h | h
        · rcases h with ⟨x, hx, hxk⟩
          exact Or.inl ⟨x, List.mem_cons_of_mem id hx, hxk⟩
        · rcases h with ⟨h', hh', hk'⟩
          injection hh' with hh'
          exact Or.inl ⟨id, List.mem_cons_self id rest, by rw [hh']; exact hk'⟩

theorem scanRuns_keys_nodup (lookup : List (ℕ × String))
    (hkeys : (lookup.map Prod.fst).Nodup) :
    ∀ (ids : List String) (cur : Option String) (off cnt idx : ℕ),
      ids.Sorted (· ≤ ·) →
      (∀ h, cur = some h → ∀ id ∈ ids, h ≤ id) →
      ((scanRuns lookup ids cur off cnt idx).map HoleRec.hole_index).Nodup := by
  intro ids
  induction ids with
  | nil =>
    intro cur off cnt idx _ _
    cases cur with
    | none => simp [scanRuns, closeRun]
    | some h =>
      cases hfind : idToKey lookup h with
      | none => simp [scanRuns, closeRun, hfind]
      | some k => simp [scanRuns, closeRun, hfind]
  | cons id rest ih =>
    intro cur off cnt idx hsorted hcur
    have hsorted_rest : rest.Sorted (· ≤ ·) :=
      (List.sorted_cons.mp hsorted).2
    have hid_le : ∀ x ∈ rest, id ≤ x :=
      (List.sorted_cons.mp hsorted).1
    by_cases hcase : some id = cur
    · simp only [scanRuns, if_pos hcase]
      apply ih cur off (cnt + 1) (idx + 1) hsorted_rest
      intro h hh x hx
      rw [hh] at hcase
      injection hcase with hcase
      rw [← hcase]
      exact hid_le x hx
    · simp only [scanRuns, if_neg hcase, List.map_append]
      have hnext : ∀ h, some id = some h → ∀ x ∈ rest, h ≤ x := by
        intro h hh x hx
        injection hh with hh
        rw [← hh]
        exact hid_le x hx
      have hrec := ih (some id) idx 1 (idx + 1) hsorted_rest hnext
      rw [List.nodup_append]
      refine ⟨?_, hrec, ?_⟩
      · cases cur with
        | none => simp [closeRun]
        | some h =>
          cases hfind : idToKey lookup h with
          | none => simp [closeRun, hfind]
          | some k => simp [closeRun, hfind]
      · intro k hk1 hk2
        cases cur with
        | none => simp [closeRun] at hk1
        | some h =>
          cases hfind : idToKey lookup h with
          | none => simp [closeRun, hfind] at hk1
          | some kh =>
            simp [closeRun, hfind] at hk1
            rw [← hk1] at hfind
            have hlt : h < id := by
              have hle : h ≤ id := hcur h rfl id (List.mem_cons_self id rest)
              have hne : h ≠ id := by
                intro hcontra
                exact hcase (by rw [hcontra])
              exact lt_of_le_of_ne hle hne
            rcases scanRuns_keys lookup rest (some id) idx 1 (idx + 1) k hk2
              with ⟨x, hx, hxk⟩ | ⟨h', hh', hk'⟩
            · have : h = x := idToKey_inj hkeys hfind hxk
              have : h < x := lt_of_lt_of_le hlt (hid_le x hx)
              simp_all
            · injection hh' with hh'
              have : h = h' := idToKey_inj hkeys hfind hk'
              rw [← hh'] at this
              exact absurd this (ne_of_lt hlt)

theorem lookup_map_fst (holeIds : List String) :
    (build_hole_id_lookup holeIds).map Prod.fst
      = List.range' 1 holeIds.length := by
  apply List.map_fst_zip
  rw [List.length_range']

theorem lookup_map_snd (holeIds : List String) :
    (build_hole_id_lookup holeIds).map Prod.snd = holeIds := by
  apply List.map_snd_zip
  rw [List.length_range']

theorem lookup_keys_nodup (holeIds : List String) :
    ((build_hole_id_lookup holeIds).map Prod.fst).Nodup := by
  rw [lookup_map_fst]
  exact List.nodup_range' 1 holeIds.length

theorem build_hole_index_map_perm (tableIds : List String)
    (lookup : List (ℕ × String)) :
    (build_hole_index_map tableIds lookup).Perm
      (scanRuns lookup tableIds none 0 0 0
        ++ (((lookup.map Prod.fst).dedup).filter
            (fun k => k ∉ (scanRuns lookup tableIds none 0 0 0).map
              HoleRec.hole_index)).map (fun k => ⟨k, 0, 0⟩)) := by
  simp only [build_hole_index_map]
  exact List.perm_insertionSort offLe _

/-- C7: for a child table sorted ascending by group key, whose keys all
appear in the parent lookup (the input contract of the grouping-index
builder), and a lookup built from P distinct hole ids, the grouping index
has exactly P entries and the entry counts sum to the child row count. -/
theorem claim_c7 (holeIds tableIds : List String)
    (hsorted : tableIds.Sorted (· ≤ ·))
    (hcomplete : ∀ id ∈ tableIds, id ∈ holeIds) :
    (build_hole_id_lookup holeIds).length = holeIds.length
    ∧ (build_hole_index_map tableIds (build_hole_id_lookup holeIds)).length
        = holeIds.length
    ∧ recCountSum (build_hole_index_map tableIds (build_hole_id_lookup holeIds))
        = tableIds.length := by
  set lookup := build_hole_id_lookup holeIds with hlk
  have hfst : lookup.map Prod.fst = List.range' 1 holeIds.length :=
    lookup_map_fst holeIds
  have hsnd : lookup.map Prod.snd = holeIds := lookup_map_snd holeIds
  have hkeys : (lookup.map Prod.fst).Nodup := lookup_keys_nodup holeIds
  have hlen : lookup.length = holeIds.length := by
    have := congrArg List.length hsnd
    simpa using this
  set recs := scanRuns lookup tableIds none 0 0 0 with hrecs
  set existing := recs.map HoleRec.hole_index with hex
  have hperm := build_hole_index_map_perm tableIds lookup
  have hex_nodup : existing.Nodup :=
    scanRuns_keys_nodup lookup hkeys tableIds none 0 0 0 hsorted
      (fun h hh => by cases hh)
  have hex_sub : ∀ k ∈ existing, k ∈ lookup.map Prod.fst := by
    intro k hk
    rcases scanRuns_keys lookup tableIds none 0 0 0 k hk with
      ⟨x, _, hxk⟩ | ⟨h, hh, _⟩
    · exact List.mem_map.mpr ⟨(k, x), idToKey_mem hxk, rfl⟩
    · cases hh
  have hded : (lookup.map Prod.fst).dedup = lookup.map Prod.fst :=
    List.Nodup.dedup hkeys
  have hkeyslen : (lookup.map Prod.fst).length = holeIds.length := by
    rw [hfst, List.length_range']
  refine ⟨hlen, ?_, ?_⟩
  · have h1 : (build_hole_index_map tableIds lookup).length
        = recs.length + (((lookup.map Prod.fst).dedup).filter
            (fun k => k ∉ existing)).length := by
      rw [hperm.length_eq, List.length_append, List.length_map]
    have hsplit : ((lookup.map Prod.fst).filter (fun k => k ∈ existing)).length
        + ((lookup.map Prod.fst).filter (fun k => !(k ∈ existing : Bool))).length
        = (lookup.map Prod.fst).length := by
      have := (List.filter_append_perm (fun k => (k ∈ existing : Bool))
        (lookup.map Prod.fst)).length_eq
      simpa using this
    have hnotP : (lookup.map Prod.fst).filter (fun k => !(k ∈ existing : Bool))
        = (lookup.map Prod.fst).filter (fun k => k ∉ existing) := by
      apply List.filter_congr
      intro a _
      simp
    have hmemP : ((lookup.map Prod.fst).filter
        (fun k => k ∈ existing)).Perm existing := by
      rw [List.perm_ext_iff_of_nodup (List.Nodup.filter _ hkeys) hex_nodup]
      intro a
      rw [List.mem_filter]
      constructor
      · intro ⟨_, ha⟩
        simpa using ha
      · intro ha
        exact ⟨hex_sub a ha, by simpa using ha⟩
    have hPlen : ((lookup.map Prod.fst).filter
        (fun k => k ∈ existing)).length = recs.length := by
      rw [hmemP.length_eq, hex, List.length_map]
    rw [h1, hded]
    rw [hnotP] at hsplit
    omega
  · have hsum_recs : recCountSum recs = tableIds.length := by
      have := scanRuns_sum lookup tableIds none 0 0 0
        (fun id hid => idToKey_isSome_of_mem (by
          rw [hsnd]
          exact hcomplete id hid))
        (fun h hh => by cases hh)
      simpa using this
    have hmapsum : recCountSum (build_hole_index_map tableIds lookup)
        = recCountSum (recs
          ++ (((lookup.map Prod.fst).dedup).filter
              (fun k => k ∉ existing)).map (fun k => ⟨k, 0, 0⟩)) := by
      unfold recCountSum
      exact (hperm.map HoleRec.count).sum_eq
    have hzero : ∀ l : List ℕ,
        ((l.map (fun k => (⟨k, 0, 0⟩ : HoleRec))).map HoleRec.count).sum = 0 := by
      intro l
      induction l with
      | nil => rfl
      | cons a t ih => simpa using ih
    rw [hmapsum]
    unfold recCountSum
    rw [List.map_append, List.sum_append, hzero]
    unfold recCountSum at hsum_recs
    omega

/-- Witness for C7: two holes, three child rows for the first hole. -/
theorem claim_c7_witness :
    (build_hole_id_lookup ["H1", "H2"]).length = 2
    ∧ (build_hole_index_map ["H1", "H1", "H1"]
        (build_hole_id_lookup ["H1", "H2"])).length = 2
    ∧ recCountSum (build_hole_index_map ["H1", "H1", "H1"]
        (build_hole_id_lookup ["H1", "H2"])) = 3 := by
  have hone : ∀ l : List String, (∀ b ∈ l, b = "H1") →
      List.Sorted (fun x1 x2 : String => x1 ≤ x2) ("H1" :: l) := by
    intro l
    induction l with
    | nil => intro _; simp
    | cons a t ih =>
      intro hall
      have ha : a = "H1" := hall a (List.mem_cons_self a t)
      refine List.sorted_cons.mpr ⟨?_, ?_⟩
      · intro b hb
        have hb2 : b = "H1" := by
          rcases List.mem_cons.mp hb with h | h
          · rw [h, ha]
          · exact hall b (List.mem_cons_of_mem a h)
        rw [hb2]
      · rw [ha]
        exact ih (fun b hb => hall b (List.mem_cons_of_mem a hb))
  exact claim_c7 ["H1", "H2"] ["H1", "H1", "H1"]
    (hone ["H1", "H1"] (fun b hb => by simpa using hb)) (by decide)

/-- C1 counterexample: for the collar holes H1, H2 and a survey of three
H1 rows, the persisted index is not [(H1,0,3), (H2,3,0)] — the zero-count
entry synthesized for H2 carries offset 0, not offset 3. -/
theorem claim_c1_counterexample :
    build_hole_index_map ["H1", "H1", "H1"] (build_hole_id_lookup ["H1", "H2"])
      ≠ [⟨1, 0, 3⟩, ⟨2, 3, 0⟩] := by
  decide

/-- C1 amended: the concrete scenario yields [(H1, offset 0, count 3),
(H2, offset 0, count 0)] — a hole absent from the survey table is
synthesized with offset 0, not with offset equal to the table length; in
general every hole present in the lookup but absent from the table appears
exactly once, with count 0 and offset 0, and the index is sorted by offset
before being persisted. -/
theorem claim_c1_amended :
    (build_hole_index_map ["H1", "H1", "H1"] (build_hole_id_lookup ["H1", "H2"])
        = [⟨1, 0, 3⟩, ⟨2, 0, 0⟩])
    ∧ (∀ (holeIds tableIds : List String) (k : ℕ) (v : String),
        holeIds.Nodup →
        (k, v) ∈ build_hole_id_lookup holeIds →
        v ∉ tableIds →
        ((build_hole_index_map tableIds (build_hole_id_lookup holeIds)).map
            HoleRec.hole_index).count k = 1
        ∧ ∀ r ∈ build_hole_index_map tableIds (build_hole_id_lookup holeIds),
            r.hole_index = k → r.count = 0 ∧ r.offset = 0)
    ∧ ∀ (tableIds : List String) (lookup : List (ℕ × String)),
        (build_hole_index_map tableIds lookup).Sorted offLe := by
  refine ⟨by decide, ?_, ?_⟩
  · intro holeIds tableIds k v hnd hkv hvn
    set lookup := build_hole_id_lookup holeIds with hlk
    have hkeys : (lookup.map Prod.fst).Nodup := lookup_keys_nodup holeIds
    have hvals : (lookup.map Prod.snd).Nodup := by
      rw [hlk, lookup_map_snd]
      exact hnd
    have hvk : idToKey lookup v = some k := idToKey_eq_of_mem hvals hkv
    set recs := scanRuns lookup tableIds none 0 0 0 with hrecs
    set existing := recs.map HoleRec.hole_index with hex
    have hperm := build_hole_index_map_perm tableIds lookup
    have hrecs_no_k : k ∉ existing := by
      intro hk
      rcases scanRuns_keys lookup tableIds none 0 0 0 k hk with
        ⟨x, hx, hxk⟩ | ⟨h, hh, _⟩
      · have : v = x := idToKey_inj hkeys hvk hxk
        rw [this] at hvn
        exact hvn hx
      · cases hh
    have hk_keys : k ∈ lookup.map Prod.fst :=
      List.mem_map.mpr ⟨(k, v), hkv, rfl⟩
    have hded : (lookup.map Prod.fst).dedup = lookup.map Prod.fst :=
      List.Nodup.dedup hkeys
    set missing := ((lookup.map Prod.fst).dedup).filter
      (fun x => x ∉ existing) with hmiss
    have hk_missing : k ∈ missing := by
      rw [hmiss, hded]
      exact List.mem_filter.mpr ⟨hk_keys, by simpa using hrecs_no_k⟩
    have hmiss_nodup : missing.Nodup := by
      rw [hmiss, hded]
      exact List.Nodup.filter _ hkeys
    constructor
    · have hmapperm : ((build_hole_index_map tableIds lookup).map
          HoleRec.hole_index).Perm
            (existing ++ missing) := by
        have hid : ∀ l : List ℕ, l.map (HoleRec.hole_index ∘
            (fun x => (⟨x, 0, 0⟩ : HoleRec))) = l := by
          intro l
          induction l with
          | nil => rfl
          | cons a t ih =>
            rw [List.map_cons, ih]
            rfl
        have h1 := hperm.map HoleRec.hole_index
        rw [List.map_append, List.map_map, hid] at h1
        exact h1
      rw [hmapperm.count_eq, List.count_append]
      have hc1 : existing.count k = 0 := List.count_eq_zero.mpr hrecs_no_k
      have hc2 : missing.count k = 1 :=
        List.count_eq_one_of_mem hmiss_nodup hk_missing
      rw [hc1, hc2]
    · intro r hr hrk
      have hr2 : r ∈ recs ++ missing.map (fun x => (⟨x, 0, 0⟩ : HoleRec)) :=
        hperm.mem_iff.mp hr
      rcases List.mem_append.mp hr2 with hr2 | hr2
      · exact absurd (List.mem_map.mpr ⟨r, hr2, hrk⟩) hrecs_no_k
      · rcases List.mem_map.mp hr2 with ⟨x, _, hxr⟩
        rw [← hxr]
        exact ⟨rfl, rfl⟩
  · intro tableIds lookup
    simp only [build_hole_index_map]
    exact List.sorted_insertionSort offLe _

/-- Witness for C1 amended: the general part evaluated on the concrete
scenario (hole H2 with key 2 absent from the survey table). -/
theorem claim_c1_amended_witness :
    ((build_hole_index_map ["H1", "H1", "H1"]
        (build_hole_id_lookup ["H1", "H2"])).map HoleRec.hole_index).count 2 = 1 :=
  (claim_c1_amended.2.1 ["H1", "H2"] ["H1", "H1", "H1"] 2 "H2"
    (by decide) (by decide) (by decide)).1

end EvoMcp
